import Mathlib

/-!
Verification of the keiba-dash racing engine core: a shallow embedding of
the odds calculator (`odds.ts`), the Plackett-Luce race simulator and
Monte Carlo driver (`race.ts`, the odds worker), and the payout resolver
and bet validator (`payout.ts`), with theorems settling the frozen claims
about them.

Modelling conventions.  JavaScript numbers are embedded as exact rationals
(`ℚ`); every claim under study is about field arithmetic, comparisons and
`Math.floor`/`Math.max`, none of which depend on binary64 rounding at the
inputs used.  `Math.exp(rating / temperature)` (in `calculateWeights`) is
transcendental and hence not executable; it is abstracted into the
`weight` field of `Horse`, which stands for the already-computed
Plackett-Luce weight of the horse.  JavaScript `Map` objects (insertion
ordered) become association lists, and the pseudo-random stream consumed
by the simulator becomes an explicit stream `draws : Nat → ℚ` together
with a counter threaded through the loop, one increment per `rng.next()`
call of the source.
-/

namespace KeibaDash

/-- A horse as the engine sees it.  `weight` stands for the Plackett-Luce
weight `exp(rating / temperature)` computed by `calculateWeights` in
`race.ts`; `exp` is strictly positive and otherwise opaque to every claim
studied here, so the rating and the exponential are abstracted into this
field. -/
structure Horse where
  id : Nat
  weight : ℚ
  deriving DecidableEq

/-- The bet type tag of `types.ts`. -/
inductive BetType where
  | win
  | place
  | quinella
  | trifecta
  deriving DecidableEq

/-- A bet: tag, chosen horse ids, stake (`payout.ts`).  The stake is a
rational because JavaScript does not restrict it to integers. -/
structure Bet where
  type : BetType
  horses : List Nat
  stake : ℚ
  deriving DecidableEq

/-- The odds table of `types.ts`: win and place odds indexed by horse
position, quinella and trifecta odds as sparse insertion-ordered maps
keyed by strings. -/
structure OddsTable where
  win : List ℚ
  place : List ℚ
  quinella : List (String × ℚ)
  trifecta : List (String × ℚ)
  deriving DecidableEq

/-- The payout record returned by `calculateBetPayout`. -/
structure Payout where
  bet : Bet
  won : Bool
  payout : ℤ
  odds : ℚ
  deriving DecidableEq

/-- The race result returned by `resolveRace`. -/
structure RaceResult where
  finishOrder : List Nat
  payouts : List Payout
  totalStake : ℚ
  totalPayout : ℤ
  netProfit : ℚ
  deriving DecidableEq

/-- The validation summary returned by `validateAllBets`. -/
structure ValidationResult where
  valid : Bool
  errors : List String
  deriving DecidableEq

/-- `getQuinellaKey` of `odds.ts`: normalized smaller-id-first pair key. -/
def getQuinellaKey (horse1 horse2 : Nat) : String :=
  if horse1 < horse2 then toString horse1 ++ "-" ++ toString horse2
  else toString horse2 ++ "-" ++ toString horse1

/-- `getTrifectaKey` of `odds.ts`: draw-ordered triple key, never
normalized. -/
def getTrifectaKey (horse1 horse2 horse3 : Nat) : String :=
  toString horse1 ++ "-" ++ toString horse2 ++ "-" ++ toString horse3

/-- `calculateWinProbabilities` of `odds.ts`: normalize the Plackett-Luce
weights.  (The source computes the weights from ratings via
`calculateWeights`; here they are read off the `weight` field, see
`Horse`.) -/
def calculateWinProbabilities (horses : List Horse) : List ℚ :=
  let weights := horses.map Horse.weight
  let totalWeight := weights.sum
  weights.map (fun w => w / totalWeight)

/-- `applyOverround` of `odds.ts`: scale every probability by
`(1 + margin) / totalProb`.  Note that this renormalizes by the sum of
the incoming probabilities. -/
def applyOverround (probabilities : List ℚ) (margin : ℚ) : List ℚ :=
  let totalProb := probabilities.sum
  let inflationFactor := (1 + margin) / totalProb
  probabilities.map (fun p => p * inflationFactor)

/-- `toDecimalOdds` of `odds.ts` (the source defaults `minOdds` to 1.05;
call sites below pass it explicitly). -/
def toDecimalOdds (probabilities : List ℚ) (minOdds : ℚ) : List ℚ :=
  probabilities.map (fun p => max minOdds (1 / p))

/-- `calculateWinOdds` of `odds.ts`.  The source takes the whole config;
only its `margin` (and, through the weights, `temperature`) reach this
computation. -/
def calculateWinOdds (horses : List Horse) (margin : ℚ) : List ℚ :=
  toDecimalOdds (applyOverround (calculateWinProbabilities horses) margin) 1.05

/-- One simulation's contribution to the place counters in
`estimatePlaceProbabilities`: each of the first `threshold` finishers has
its counter incremented (ids are 1-based, counters 0-based). -/
def tallyPlace (threshold : Nat) (counts : List ℚ) (finishOrder : List Nat) : List ℚ :=
  (finishOrder.take threshold).foldl
    (fun c horseId => c.set (horseId - 1) (c.getD (horseId - 1) 0 + 1)) counts

/-- `estimatePlaceProbabilities` of `odds.ts`. -/
def estimatePlaceProbabilities (simulations : List (List Nat)) (numHorses : Nat) : List ℚ :=
  let placeThreshold := if numHorses ≥ 8 then 3 else 2
  let placeCounts := simulations.foldl (tallyPlace placeThreshold)
    (List.replicate numHorses (0 : ℚ))
  placeCounts.map (fun count => count / (simulations.length : ℚ))

/-- `Map.set(key, (Map.get(key) || 0) + 1)` on an insertion-ordered map:
increment in place if present, append otherwise. -/
def bump : List (String × Nat) → String → List (String × Nat)
  | [], key => [(key, 1)]
  | (k, v) :: rest, key =>
    if k = key then (k, v + 1) :: rest else (k, v) :: bump rest key

/-- `estimateQuinellaProbabilities` of `odds.ts`: count normalized
first-second pairs, then divide by the trial count. -/
def estimateQuinellaProbabilities (simulations : List (List Nat)) : List (String × ℚ) :=
  let counts := simulations.foldl
    (fun m finishOrder => bump m (getQuinellaKey (finishOrder.getD 0 0) (finishOrder.getD 1 0))) []
  counts.map (fun kv => (kv.1, (kv.2 : ℚ) / (simulations.length : ℚ)))

/-- `estimateTrifectaProbabilities` of `odds.ts`: count draw-ordered
triples, then divide by the trial count. -/
def estimateTrifectaProbabilities (simulations : List (List Nat)) : List (String × ℚ) :=
  let counts := simulations.foldl
    (fun m finishOrder =>
      bump m (getTrifectaKey (finishOrder.getD 0 0) (finishOrder.getD 1 0) (finishOrder.getD 2 0))) []
  counts.map (fun kv => (kv.1, (kv.2 : ℚ) / (simulations.length : ℚ)))

/-- `calculateOddsTable` of `odds.ts`.  Win odds are analytical; place
odds go through `applyOverround`; quinella and trifecta odds inflate each
observed probability by `1 + margin` directly.  The worker
(`oddsWorker.ts`) computes the same four components with identical
formulas. -/
def calculateOddsTable (horses : List Horse) (margin : ℚ)
    (simulations : List (List Nat)) : OddsTable :=
  let winOdds := calculateWinOdds horses margin
  let placeProbs := estimatePlaceProbabilities simulations horses.length
  let adjustedPlaceProbs := applyOverround placeProbs margin
  let placeOdds := toDecimalOdds adjustedPlaceProbs 1.05
  let quinellaOdds := (estimateQuinellaProbabilities simulations).map
    (fun kv => (kv.1, max 1.05 (1 / (kv.2 * (1 + margin)))))
  let trifectaOdds := (estimateTrifectaProbabilities simulations).map
    (fun kv => (kv.1, max 1.05 (1 / (kv.2 * (1 + margin)))))
  ⟨winOdds, placeOdds, quinellaOdds, trifectaOdds⟩

/-- The subtraction loop inside `sampleByWeight` of `race.ts`: subtract
each remaining candidate's weight from the target and stop at the first
candidate that drives it to or below zero; `none` when the loop exhausts
the pool (the floating-point guard case of the source). -/
def sampleLoop (weights : List ℚ) : ℚ → List Nat → Option Nat
  | _, [] => none
  | target, idx :: rest =>
    let t := target - weights.getD idx 0
    if t ≤ 0 then some idx else sampleLoop weights t rest

/-- `sampleByWeight` of `race.ts`: draw `u * totalRemainingWeight` and
walk the remaining pool; fall back to the last remaining candidate if the
loop exhausts the pool. -/
def sampleByWeight (remainingIndices : List Nat) (weights : List ℚ) (u : ℚ) : Nat :=
  let totalWeight := (remainingIndices.map (fun idx => weights.getD idx 0)).sum
  match sampleLoop weights (u * totalWeight) remainingIndices with
  | some idx => idx
  | none => remainingIndices.getLastD 0

/-- The selection loop of `simulateRace`, with the RNG made explicit:
`draws k` is the value of the `k`-th `rng.next()` call, and the returned
counter records how many draws were consumed.  Fuel equals the initial
pool size at the top-level call, so the loop always runs to emptiness. -/
def simulateLoop (horses : List Horse) (weights : List ℚ) (draws : Nat → ℚ) :
    Nat → List Nat → Nat → List Nat × Nat
  | 0, _, k => ([], k)
  | fuel + 1, remaining, k =>
    match remaining with
    | [] => ([], k)
    | r :: rs =>
      let selectedIdx := sampleByWeight (r :: rs) weights (draws k)
      let step := simulateLoop horses weights draws fuel ((r :: rs).erase selectedIdx) (k + 1)
      ((horses.getD selectedIdx ⟨0, 0⟩).id :: step.1, step.2)

/-- `simulateRace` of `race.ts`: repeatedly sample from the remaining
indices and append the selected horse's id.  (`splice(indexOf(x), 1)` on
a duplicate-free index list is `List.erase x`.) -/
def simulateRace (horses : List Horse) (draws : Nat → ℚ) : List Nat :=
  let weights := horses.map Horse.weight
  (simulateLoop horses weights draws horses.length (List.range horses.length) 0).1

/-- The number of `rng.next()` calls `simulateRace` consumes on the same
inputs. -/
def drawsConsumed (horses : List Horse) (draws : Nat → ℚ) : Nat :=
  let weights := horses.map Horse.weight
  (simulateLoop horses weights draws horses.length (List.range horses.length) 0).2

/-- The per-trial seed strings of `runMonteCarloSimulations` in
`race.ts`: trial `t` runs `simulateRace` under seed
`{baseSeed}-trial-{t}`. -/
def trialSeeds (baseSeed : String) (numTrials : Nat) : List String :=
  (List.range numTrials).map (fun trial => baseSeed ++ "-trial-" ++ toString trial)

/-- `runMonteCarloSimulations` of `race.ts`, with the seed-to-finish-order
map of `simulateRace` (whose RNG is a binary64 computation outside this
embedding) abstracted as `simulate`: trial `t` simulates under seed
`{baseSeed}-trial-{t}`. -/
def runMonteCarloSimulations (simulate : String → List Nat) (baseSeed : String)
    (numTrials : Nat) : List (List Nat) :=
  (trialSeeds baseSeed numTrials).map simulate

/-- The batch loop of the odds worker (`self.onmessage`), restricted to
the seed strings it feeds to `runMonteCarloSimulations`: batch `b`
(starting trial index, stepping by `batchSize`) uses base seed
`{seed}-batch-{b}` and restarts trial indices at 0.  Fuel equals
`numTrials` at the top-level call, which bounds the number of batches
whenever `batchSize > 0`. -/
def workerSeedLoop (seed : String) (numTrials batchSize : Nat) : Nat → Nat → List String
  | 0, _ => []
  | fuel + 1, batch =>
    if batch < numTrials then
      trialSeeds (seed ++ "-batch-" ++ toString batch) (min batchSize (numTrials - batch))
        ++ workerSeedLoop seed numTrials batchSize fuel (batch + batchSize)
    else []

/-- All per-trial seeds of the worker's batched run, for a given batch
size. -/
def workerTrialSeedsWith (batchSize : Nat) (seed : String) (numTrials : Nat) : List String :=
  workerSeedLoop seed numTrials batchSize numTrials 0

/-- All per-trial seeds of the worker's batched run with the worker's own
batch size `max(1000, floor(numTrials / 10))`. -/
def workerTrialSeeds (seed : String) (numTrials : Nat) : List String :=
  workerTrialSeedsWith (max 1000 (numTrials / 10)) seed numTrials

/-- The worker's batch loop itself: concatenate the
`runMonteCarloSimulations` results of every batch. -/
def workerSimLoop (simulate : String → List Nat) (seed : String)
    (numTrials batchSize : Nat) : Nat → Nat → List (List Nat)
  | 0, _ => []
  | fuel + 1, batch =>
    if batch < numTrials then
      runMonteCarloSimulations simulate (seed ++ "-batch-" ++ toString batch)
          (min batchSize (numTrials - batch))
        ++ workerSimLoop simulate seed numTrials batchSize fuel (batch + batchSize)
    else []

/-- The full multiset of finish orders the worker accumulates
(`allSimulations`), with the worker's own batch size. -/
def workerSimulations (simulate : String → List Nat) (seed : String)
    (numTrials : Nat) : List (List Nat) :=
  workerSimLoop simulate seed numTrials (max 1000 (numTrials / 10)) numTrials 0

/-- A concrete seed-sensitive stand-in for the seed-to-finish-order map,
used to evaluate the batching pipelines on explicit inputs. -/
def charCodes (s : String) : List Nat :=
  s.data.map Char.toNat

/-- `checkWinBet` of `payout.ts`. -/
def checkWinBet (bet : Bet) (finishOrder : List Nat) : Bool :=
  finishOrder.getD 0 0 == bet.horses.getD 0 0

/-- `checkPlaceBet` of `payout.ts`: top 3 of 8 or more horses, top 2
otherwise. -/
def checkPlaceBet (bet : Bet) (finishOrder : List Nat) : Bool :=
  let placeThreshold := if finishOrder.length ≥ 8 then 3 else 2
  (finishOrder.take placeThreshold).contains (bet.horses.getD 0 0)

/-- `checkQuinellaBet` of `payout.ts`. -/
def checkQuinellaBet (bet : Bet) (finishOrder : List Nat) : Bool :=
  let first := finishOrder.getD 0 0
  let second := finishOrder.getD 1 0
  let h1 := bet.horses.getD 0 0
  let h2 := bet.horses.getD 1 0
  (first == h1 && second == h2) || (first == h2 && second == h1)

/-- `checkTrifectaBet` of `payout.ts`. -/
def checkTrifectaBet (bet : Bet) (finishOrder : List Nat) : Bool :=
  finishOrder.getD 0 0 == bet.horses.getD 0 0
    && finishOrder.getD 1 0 == bet.horses.getD 1 0
    && finishOrder.getD 2 0 == bet.horses.getD 2 0

/-- `getOddsForBet` of `payout.ts`: array lookup for win and place, map
lookup with `|| 0` (absent key means odds 0) for quinella and
trifecta. -/
def getOddsForBet (bet : Bet) (oddsTable : OddsTable) : ℚ :=
  match bet.type with
  | BetType.win => oddsTable.win.getD (bet.horses.getD 0 0 - 1) 0
  | BetType.place => oddsTable.place.getD (bet.horses.getD 0 0 - 1) 0
  | BetType.quinella =>
    (oddsTable.quinella.lookup
      (getQuinellaKey (bet.horses.getD 0 0) (bet.horses.getD 1 0))).getD 0
  | BetType.trifecta =>
    (oddsTable.trifecta.lookup
      (getTrifectaKey (bet.horses.getD 0 0) (bet.horses.getD 1 0) (bet.horses.getD 2 0))).getD 0

/-- `isBetWinner` of `payout.ts`: purely a function of the bet's horse
list and the finish order. -/
def isBetWinner (bet : Bet) (finishOrder : List Nat) : Bool :=
  match bet.type with
  | BetType.win => checkWinBet bet finishOrder
  | BetType.place => checkPlaceBet bet finishOrder
  | BetType.quinella => checkQuinellaBet bet finishOrder
  | BetType.trifecta => checkTrifectaBet bet finishOrder

/-- `calculateBetPayout` of `payout.ts`: a winner pays
`floor(stake * odds)`, a loser pays 0. -/
def calculateBetPayout (bet : Bet) (finishOrder : List Nat) (oddsTable : OddsTable) : Payout :=
  let won := isBetWinner bet finishOrder
  let odds := getOddsForBet bet oddsTable
  let payout : ℤ := if won then ⌊bet.stake * odds⌋ else 0
  ⟨bet, won, payout, odds⟩

/-- The accumulation loop of `resolveRace`: payouts in bet order, total
stake, total payout. -/
def resolveLoop (finishOrder : List Nat) (oddsTable : OddsTable) :
    List Bet → List Payout × ℚ × ℤ
  | [] => ([], 0, 0)
  | bet :: rest =>
    let p := calculateBetPayout bet finishOrder oddsTable
    let step := resolveLoop finishOrder oddsTable rest
    (p :: step.1, bet.stake + step.2.1, p.payout + step.2.2)

/-- `resolveRace` of `payout.ts`.  Note the source performs no check of
any kind on `finishOrder`: whatever list arrives is resolved against and
returned verbatim in the result. -/
def resolveRace (bets : List Bet) (finishOrder : List Nat) (oddsTable : OddsTable) : RaceResult :=
  let acc := resolveLoop finishOrder oddsTable bets
  ⟨finishOrder, acc.1, acc.2.1, acc.2.2, (acc.2.2 : ℚ) - acc.2.1⟩

/-- JavaScript `Math.round`: round half toward positive infinity. -/
def jsRound (q : ℚ) : ℤ :=
  ⌊q + 1 / 2⌋

/-- `validateBet` of `payout.ts`, as the error message it produces
(`none` means valid).  The `!Number.isFinite(bet.stake)` disjunct of the
second check can never fire in the rational model (no NaN or Infinity),
so only `bet.stake <= 0` remains of it.  Note the source never checks
that the stake is an integer. -/
def validateBet (bet : Bet) (bankroll currentTotalStake maxBetPercentage minBet : ℚ) :
    Option String :=
  if bet.stake < minBet then
    some ("Minimum bet is " ++ toString minBet ++ " points")
  else if bet.stake ≤ 0 then
    some "Invalid bet amount"
  else if bankroll < currentTotalStake + bet.stake then
    some "Insufficient bankroll"
  else if bankroll * maxBetPercentage < currentTotalStake + bet.stake then
    some ("Maximum bet per race is " ++ toString (jsRound (maxBetPercentage * 100))
      ++ "% of bankroll")
  else if bet.horses.isEmpty then
    some "No horses selected"
  else if ¬ bet.horses.Nodup then
    some "Cannot select the same horse multiple times"
  else
    match bet.type with
    | BetType.win => if bet.horses.length ≠ 1 then some "win bet requires 1 horse" else none
    | BetType.place => if bet.horses.length ≠ 1 then some "place bet requires 1 horse" else none
    | BetType.quinella =>
      if bet.horses.length ≠ 2 then some "Quinella bet requires 2 horses" else none
    | BetType.trifecta =>
      if bet.horses.length ≠ 3 then some "Trifecta bet requires 3 horses" else none

/-- The horse count `validateBet` requires for each bet type. -/
def requiredHorses : BetType → Nat
  | BetType.win => 1
  | BetType.place => 1
  | BetType.quinella => 2
  | BetType.trifecta => 3

/-- The numbered per-bet message `validateAllBets` pushes for bet `i`
(0-based here, displayed 1-based). -/
def betError (i : Nat) (err : String) : String :=
  "Bet " ++ toString (i + 1) ++ ": " ++ err

/-- The loop of `validateAllBets`: validate each bet against the running
total, collect every error, and add a bet's stake to the running total
only when that bet is valid.  Returns the error list and the final
accumulated stake. -/
def validateLoop (bankroll maxBetPercentage minBet : ℚ) :
    List Bet → Nat → ℚ → List String × ℚ
  | [], _, totalStake => ([], totalStake)
  | bet :: rest, i, totalStake =>
    match validateBet bet bankroll totalStake maxBetPercentage minBet with
    | some err =>
      let step := validateLoop bankroll maxBetPercentage minBet rest (i + 1) totalStake
      (betError i err :: step.1, step.2)
    | none => validateLoop bankroll maxBetPercentage minBet rest (i + 1) (totalStake + bet.stake)

/-- `validateAllBets` of `payout.ts`. -/
def validateAllBets (bets : List Bet) (bankroll maxBetPercentage minBet : ℚ) :
    ValidationResult :=
  if bets.isEmpty then ⟨false, ["No bets placed"]⟩
  else
    let es := (validateLoop bankroll maxBetPercentage minBet bets 0 0).1
    ⟨es.isEmpty, es⟩

/-! ## Payout resolution -/

/-- The `resolveRace` loop unfolded: payouts in bet order, total stake and
total payout as sums. -/
lemma resolveLoop_eq (finishOrder : List Nat) (oddsTable : OddsTable) (bets : List Bet) :
    resolveLoop finishOrder oddsTable bets =
      (bets.map (fun b => calculateBetPayout b finishOrder oddsTable),
        (bets.map Bet.stake).sum,
        (bets.map (fun b => (calculateBetPayout b finishOrder oddsTable).payout)).sum) := by
  induction bets with
  | nil => simp [resolveLoop]
  | cons bet rest ih => simp [resolveLoop, ih]

/-- C4: resolving the batch [win on 1 for 100, place on 2 for 200] against
finish [1,2,3,4] with win odds 5.0 for horse 1 and place odds 1.8 for
horse 2 gives totalStake 300, totalPayout 860 (500 + floor(200·1.8) = 360)
and netProfit 560; in general `resolveRace` pays each winning bet
`floor(stake · odds)`, each losing bet 0, totals are the sums over the
batch, and net profit is total payout minus total stake. -/
theorem resolveRace_payout_arithmetic :
    (resolveRace [⟨BetType.win, [1], 100⟩, ⟨BetType.place, [2], 200⟩] [1, 2, 3, 4]
        ⟨[5, 3, 2, 10], [5/2, 9/5, 3/2, 4], [], []⟩ =
      ⟨[1, 2, 3, 4],
        [⟨⟨BetType.win, [1], 100⟩, true, 500, 5⟩,
         ⟨⟨BetType.place, [2], 200⟩, true, 360, 9/5⟩],
        300, 860, 560⟩)
    ∧ (∀ (bets : List Bet) (finishOrder : List Nat) (oddsTable : OddsTable),
        resolveRace bets finishOrder oddsTable =
          ⟨finishOrder,
            bets.map (fun b => calculateBetPayout b finishOrder oddsTable),
            (bets.map Bet.stake).sum,
            (bets.map (fun b => (calculateBetPayout b finishOrder oddsTable).payout)).sum,
            (((bets.map (fun b => (calculateBetPayout b finishOrder oddsTable).payout)).sum : ℤ) : ℚ)
              - (bets.map Bet.stake).sum⟩)
    ∧ (∀ (bet : Bet) (finishOrder : List Nat) (oddsTable : OddsTable),
        (calculateBetPayout bet finishOrder oddsTable).payout =
          if isBetWinner bet finishOrder then ⌊bet.stake * getOddsForBet bet oddsTable⌋
          else 0) := by
  refine ⟨?_, fun bets finishOrder oddsTable => ?_, fun bet finishOrder oddsTable => rfl⟩
  · simp [resolveRace, resolveLoop, calculateBetPayout, isBetWinner, checkWinBet,
      checkPlaceBet, getOddsForBet, List.getD]
    norm_num
  · simp [resolveRace, resolveLoop_eq]

/-- C3 evidence: `resolveRace` performs no finish-order integrity check.
Fed the order [1,1,3] — horse 1 twice, horse 2 missing — it does not fail
but returns a fully computed `RaceResult` (the win bet on horse 1 even
pays). -/
theorem resolveRace_computes_on_invalid_order :
    ¬ ([1, 1, 3] : List Nat).Nodup
    ∧ resolveRace [⟨BetType.win, [1], 100⟩] [1, 1, 3]
        ⟨[5, 3, 2], [5/2, 9/5, 3/2], [], []⟩ =
      ⟨[1, 1, 3], [⟨⟨BetType.win, [1], 100⟩, true, 500, 5⟩], 100, 500, 400⟩ := by
  constructor
  · decide
  · simp [resolveRace, resolveLoop, calculateBetPayout, isBetWinner, checkWinBet,
      getOddsForBet, List.getD]
    norm_num

/-- C8: a quinella or trifecta bet whose key is absent from the odds
table gets odds 0 and payout 0 from `calculateBetPayout`, with no error,
independently of whether the win condition holds. -/
theorem missing_odds_entry_pays_zero :
    ∀ (bet : Bet) (finishOrder : List Nat) (oddsTable : OddsTable),
      ((bet.type = BetType.quinella
          ∧ oddsTable.quinella.lookup
              (getQuinellaKey (bet.horses.getD 0 0) (bet.horses.getD 1 0)) = none)
        ∨ (bet.type = BetType.trifecta
          ∧ oddsTable.trifecta.lookup
              (getTrifectaKey (bet.horses.getD 0 0) (bet.horses.getD 1 0)
                (bet.horses.getD 2 0)) = none)) →
      (calculateBetPayout bet finishOrder oddsTable).odds = 0
        ∧ (calculateBetPayout bet finishOrder oddsTable).payout = 0 := by
  rintro ⟨ty, hs, st⟩ finishOrder oddsTable (⟨hty, hlook⟩ | ⟨hty, hlook⟩) <;> subst hty <;>
    simp only [calculateBetPayout, getOddsForBet] <;>
    rw [hlook] <;>
    simp

/-- C8 witness: a quinella on horses 1 and 2 (which does finish 1st-2nd
here) against an empty odds table pays 0 at odds 0. -/
theorem missing_odds_entry_pays_zero_witness :
    (calculateBetPayout ⟨BetType.quinella, [1, 2], 100⟩ [2, 1] ⟨[], [], [], []⟩).odds = 0
      ∧ (calculateBetPayout ⟨BetType.quinella, [1, 2], 100⟩ [2, 1] ⟨[], [], [], []⟩).payout = 0 :=
  missing_odds_entry_pays_zero _ _ _ (Or.inl ⟨rfl, rfl⟩)

/-- C10: the `won` flag of `calculateBetPayout` depends only on the bet's
horse list and the finish order, never on the odds table; a winning
quinella or trifecta whose key is missing from the table is reported with
`won = true` together with odds 0 and payout 0. -/
theorem won_flag_independent_of_odds :
    ∀ (bet : Bet) (finishOrder : List Nat) (t₁ t₂ : OddsTable),
      ((calculateBetPayout bet finishOrder t₁).won
        = (calculateBetPayout bet finishOrder t₂).won)
      ∧ ((calculateBetPayout bet finishOrder t₁).won = isBetWinner bet finishOrder)
      ∧ (bet.type = BetType.quinella →
          t₁.quinella.lookup (getQuinellaKey (bet.horses.getD 0 0) (bet.horses.getD 1 0)) = none →
          isBetWinner bet finishOrder = true →
          calculateBetPayout bet finishOrder t₁ = ⟨bet, true, 0, 0⟩)
      ∧ (bet.type = BetType.trifecta →
          t₁.trifecta.lookup
              (getTrifectaKey (bet.horses.getD 0 0) (bet.horses.getD 1 0)
                (bet.horses.getD 2 0)) = none →
          isBetWinner bet finishOrder = true →
          calculateBetPayout bet finishOrder t₁ = ⟨bet, true, 0, 0⟩) := by
  intro bet finishOrder t₁ t₂
  obtain ⟨ty, hs, st⟩ := bet
  refine ⟨rfl, rfl, fun hty hlook hwin => ?_, fun hty hlook hwin => ?_⟩ <;> subst hty <;>
    simp only [calculateBetPayout, getOddsForBet] <;>
    rw [hlook] <;>
    simp [hwin]

/-- C10 witness: the winning quinella [1,2] on finish [2,1,3] against an
empty table is reported won with odds 0 and payout 0. -/
theorem won_flag_independent_of_odds_witness :
    calculateBetPayout ⟨BetType.quinella, [1, 2], 100⟩ [2, 1, 3] ⟨[], [], [], []⟩ =
      ⟨⟨BetType.quinella, [1, 2], 100⟩, true, 0, 0⟩ :=
  (won_flag_independent_of_odds ⟨BetType.quinella, [1, 2], 100⟩ [2, 1, 3]
      ⟨[], [], [], []⟩ ⟨[], [], [], []⟩).2.2.1 rfl rfl (by decide)

/-! ## Bet validation -/

/-- C7 counterexample: `validateBet` accepts the stake 150.5, which is not
an integer — the source has no integrality check, only minimum,
positivity/finiteness, bankroll and cap checks. -/
theorem validateBet_accepts_noninteger_stake_cex :
    validateBet ⟨BetType.win, [1], 301/2⟩ 1000 0 (1/2) 100 = none
      ∧ ¬ ∃ n : ℤ, ((301 : ℚ)/2) = (n : ℚ) := by
  constructor
  · unfold validateBet
    rw [if_neg (by norm_num), if_neg (by norm_num), if_neg (by norm_num),
      if_neg (by norm_num), if_neg (by decide), if_neg (by decide)]
    decide
  · rintro ⟨n, hn⟩
    have h2 : (301 : ℚ) = 2 * (n : ℚ) := by linarith
    have h3 : (301 : ℤ) = 2 * n := by exact_mod_cast h2
    omega

set_option maxHeartbeats 1600000 in
/-- C7 (amended): `validateBet` accepts a bet exactly when the stake is at
least the minimum, positive (finiteness is automatic in the rational
model), fits the bankroll and the max-bet-percentage cap on top of the
stake already accumulated, and the horse list is nonempty, duplicate-free
and of the count the bet type requires — integrality of the stake is not
among the checks. -/
theorem validateBet_characterization :
    ∀ (bet : Bet) (bankroll currentTotalStake maxBetPercentage minBet : ℚ),
      validateBet bet bankroll currentTotalStake maxBetPercentage minBet = none ↔
        (minBet ≤ bet.stake ∧ 0 < bet.stake
          ∧ currentTotalStake + bet.stake ≤ bankroll
          ∧ currentTotalStake + bet.stake ≤ bankroll * maxBetPercentage
          ∧ bet.horses ≠ [] ∧ bet.horses.Nodup
          ∧ bet.horses.length = requiredHorses bet.type) := by
  intro ⟨ty, hs, st⟩ b cts mp mb
  unfold validateBet
  cases ty <;> dsimp only [requiredHorses] <;> split_ifs with h1 h2 h3 h4 h5 h6 h7 <;>
    first
      | exact iff_of_true rfl ⟨not_lt.mp h1, not_le.mp h2, not_lt.mp h3, not_lt.mp h4,
          fun he => h5 (by simp [he]), h6, not_not.mp h7⟩
      | · refine iff_of_false (by simp) ?_
          rintro ⟨k1, k2, k3, k4, k5, k6, k7⟩
          first
            | exact absurd k1 (not_le.mpr h1)
            | exact absurd k2 (not_lt.mpr h2)
            | exact absurd k3 (not_le.mpr h3)
            | exact absurd k4 (not_le.mpr h4)
            | exact k5 (List.isEmpty_iff.mp h5)
            | exact h6 k6
            | exact h7 k7

/-- The `validateAllBets` loop splits over list concatenation; the stake
accumulated by the first part is handed to the second. -/
lemma validateLoop_append (b mp mb : ℚ) (l₁ l₂ : List Bet) : ∀ (i : Nat) (s : ℚ),
    validateLoop b mp mb (l₁ ++ l₂) i s =
      ((validateLoop b mp mb l₁ i s).1
          ++ (validateLoop b mp mb l₂ (i + l₁.length) (validateLoop b mp mb l₁ i s).2).1,
        (validateLoop b mp mb l₂ (i + l₁.length) (validateLoop b mp mb l₁ i s).2).2) := by
  induction l₁ with
  | nil => intro i s; simp [validateLoop]
  | cons bet rest ih =>
    intro i s
    have e : i + 1 + rest.length = i + (rest.length + 1) := by omega
    simp only [List.cons_append, validateLoop, List.length_cons]
    cases h : validateBet bet b s mp mb with
    | some err => simp [h, ih (i + 1) s, e]
    | none => simp [h, ih (i + 1) (s + bet.stake), e]

/-- The starting bet number only affects the numbering inside the error
messages: the number of errors and the accumulated stake are independent
of it. -/
lemma validateLoop_shift (b mp mb : ℚ) (l : List Bet) : ∀ (i j : Nat) (s : ℚ),
    (validateLoop b mp mb l i s).1.length = (validateLoop b mp mb l j s).1.length
      ∧ (validateLoop b mp mb l i s).2 = (validateLoop b mp mb l j s).2 := by
  induction l with
  | nil => intro i j s; simp [validateLoop]
  | cons bet rest ih =>
    intro i j s
    simp only [validateLoop]
    cases h : validateBet bet b s mp mb with
    | some err =>
      simp only [h]
      exact ⟨by simp [(ih (i + 1) (j + 1) s).1], (ih (i + 1) (j + 1) s).2⟩
    | none => exact ih (i + 1) (j + 1) (s + bet.stake)

/-- C6: on a nonempty batch `validateAllBets` is valid exactly when its
error list is empty; every invalid bet contributes its numbered error
while the scan continues; and an invalid bet's stake is not added to the
running total — deleting the invalid bet leaves the accumulated stake,
and hence every later bet's outcome, unchanged (error count drops by
exactly the one error of the deleted bet). -/
theorem validateAllBets_no_cascade :
    ∀ (bankroll maxBetPercentage minBet : ℚ) (bets₁ bets₂ : List Bet) (bad : Bet) (err : String),
      validateBet bad bankroll (validateLoop bankroll maxBetPercentage minBet bets₁ 0 0).2
          maxBetPercentage minBet = some err →
      (∀ bets : List Bet, bets ≠ [] →
        ((validateAllBets bets bankroll maxBetPercentage minBet).valid = true ↔
          (validateAllBets bets bankroll maxBetPercentage minBet).errors = []))
      ∧ (validateAllBets (bets₁ ++ bad :: bets₂) bankroll maxBetPercentage minBet).valid = false
      ∧ (validateAllBets (bets₁ ++ bad :: bets₂) bankroll maxBetPercentage minBet).errors =
          (validateLoop bankroll maxBetPercentage minBet bets₁ 0 0).1
            ++ betError bets₁.length err
              :: (validateLoop bankroll maxBetPercentage minBet bets₂ (bets₁.length + 1)
                  (validateLoop bankroll maxBetPercentage minBet bets₁ 0 0).2).1
      ∧ (validateLoop bankroll maxBetPercentage minBet (bets₁ ++ bad :: bets₂) 0 0).2 =
          (validateLoop bankroll maxBetPercentage minBet (bets₁ ++ bets₂) 0 0).2
      ∧ (validateLoop bankroll maxBetPercentage minBet (bets₁ ++ bad :: bets₂) 0 0).1.length =
          (validateLoop bankroll maxBetPercentage minBet (bets₁ ++ bets₂) 0 0).1.length + 1 := by
  intro b mp mb l₁ l₂ bad err hbad
  have hiff : ∀ bets : List Bet, bets ≠ [] →
      ((validateAllBets bets b mp mb).valid = true ↔ (validateAllBets bets b mp mb).errors = []) := by
    intro bets hne
    simp [validateAllBets, List.isEmpty_iff, hne]
  have hstep : validateLoop b mp mb (l₁ ++ bad :: l₂) 0 0 =
      ((validateLoop b mp mb l₁ 0 0).1
          ++ betError l₁.length err
            :: (validateLoop b mp mb l₂ (l₁.length + 1) (validateLoop b mp mb l₁ 0 0).2).1,
        (validateLoop b mp mb l₂ (l₁.length + 1) (validateLoop b mp mb l₁ 0 0).2).2) := by
    rw [validateLoop_append b mp mb l₁ (bad :: l₂) 0 0]
    simp only [validateLoop, hbad, Nat.zero_add]
  have herrs : (validateAllBets (l₁ ++ bad :: l₂) b mp mb).errors =
      (validateLoop b mp mb l₁ 0 0).1
        ++ betError l₁.length err
          :: (validateLoop b mp mb l₂ (l₁.length + 1) (validateLoop b mp mb l₁ 0 0).2).1 := by
    simp only [validateAllBets, List.isEmpty_iff]
    rw [if_neg (by simp [List.isEmpty_iff])]
    simp [hstep]
  have hvalid : (validateAllBets (l₁ ++ bad :: l₂) b mp mb).valid = false := by
    simp only [validateAllBets]
    rw [if_neg (by simp [List.isEmpty_iff])]
    simp [hstep, List.isEmpty_iff]
  have hdel : validateLoop b mp mb (l₁ ++ l₂) 0 0 =
      ((validateLoop b mp mb l₁ 0 0).1
          ++ (validateLoop b mp mb l₂ l₁.length (validateLoop b mp mb l₁ 0 0).2).1,
        (validateLoop b mp mb l₂ l₁.length (validateLoop b mp mb l₁ 0 0).2).2) := by
    rw [validateLoop_append b mp mb l₁ l₂ 0 0]
    simp
  refine ⟨hiff, hvalid, herrs, ?_, ?_⟩
  · rw [hstep, hdel]
    exact (validateLoop_shift b mp mb l₂ (l₁.length + 1) l₁.length
      (validateLoop b mp mb l₁ 0 0).2).2
  · rw [hstep, hdel]
    simp [List.length_append]
    have := (validateLoop_shift b mp mb l₂ (l₁.length + 1) l₁.length
      (validateLoop b mp mb l₁ 0 0).2).1
    omega

/-- C6 witness: a duplicate-horse quinella followed by a legal win bet —
the batch is reported invalid. -/
theorem validateAllBets_no_cascade_witness :
    (validateAllBets [⟨BetType.quinella, [1, 1], 100⟩, ⟨BetType.win, [2], 100⟩]
        1000 (1/2) 0).valid = false :=
  (validateAllBets_no_cascade 1000 (1/2) 0 [] [⟨BetType.win, [2], 100⟩]
      ⟨BetType.quinella, [1, 1], 100⟩ "Cannot select the same horse multiple times"
      (by
        unfold validateBet
        rw [if_neg (by norm_num [validateLoop]), if_neg (by norm_num [validateLoop]),
          if_neg (by norm_num [validateLoop]), if_neg (by norm_num [validateLoop]),
          if_neg (by decide), if_pos (by decide)])).2.1

/-! ## Odds calculation -/

/-- C1 (amended): in `calculateOddsTable` (and identically in the worker)
the quinella and trifecta markets inflate each observed probability by
`1 + margin` directly, with no renormalization; the place market, by
contrast, goes through `applyOverround`, so each place probability is
scaled by `(1 + margin) / Σ placeProbs` — a renormalization by the sum of
the place probabilities — before inversion and flooring at 1.05. -/
theorem calculateOddsTable_margin_application :
    ∀ (horses : List Horse) (margin : ℚ) (simulations : List (List Nat)),
      (calculateOddsTable horses margin simulations).place =
        (estimatePlaceProbabilities simulations horses.length).map
          (fun p => max 1.05 (1 / (p * ((1 + margin) /
            (estimatePlaceProbabilities simulations horses.length).sum))))
      ∧ (calculateOddsTable horses margin simulations).quinella =
          (estimateQuinellaProbabilities simulations).map
            (fun kv => (kv.1, max 1.05 (1 / (kv.2 * (1 + margin)))))
      ∧ (calculateOddsTable horses margin simulations).trifecta =
          (estimateTrifectaProbabilities simulations).map
            (fun kv => (kv.1, max 1.05 (1 / (kv.2 * (1 + margin))))) := by
  intro horses margin simulations
  refine ⟨?_, rfl, rfl⟩
  simp [calculateOddsTable, toDecimalOdds, applyOverround, List.map_map, Function.comp]

/-- C1 counterexample: with two equal horses, margin 0.18 and the single
observed order [1,2], every place probability is 1, so the claimed direct
formula gives `max(1.05, 1/1.18) = 1.05`; the code instead divides by the
sum 2 of the place probabilities and returns 100/59 ≈ 1.695. -/
theorem calculateOddsTable_place_renormalizes_cex :
    (calculateOddsTable [⟨1, 1⟩, ⟨2, 1⟩] (18/100) [[1, 2]]).place.getD 0 0 = 100/59
      ∧ (estimatePlaceProbabilities [[1, 2]] 2).getD 0 0 = 1
      ∧ max (1.05 : ℚ) (1 / ((1 : ℚ) * (1 + 18/100))) = 21/20
      ∧ ((100 : ℚ)/59) ≠ 21/20 := by
  refine ⟨?_, ?_, by norm_num, by norm_num⟩
  · simp [calculateOddsTable, estimatePlaceProbabilities, tallyPlace, applyOverround,
      toDecimalOdds, List.getD]
    norm_num
  · simp [estimatePlaceProbabilities, tallyPlace, List.getD]

/-- Sums of lists divided elementwise by a constant. -/
lemma list_sum_map_div (l : List ℚ) (c : ℚ) : (l.map (fun x => x / c)).sum = l.sum / c := by
  induction l with
  | nil => simp
  | cons x t ih => simp [ih, add_div]

/-- Sums of lists multiplied elementwise by a constant. -/
lemma list_sum_map_mul (l : List ℚ) (c : ℚ) : (l.map (fun x => x * c)).sum = l.sum * c := by
  induction l with
  | nil => simp
  | cons x t ih => simp [ih, add_mul]

/-- The implied-probability sum of the odds `max(minOdds, 1/p)` is at most
the probability sum, with equality when the floor never engages. -/
lemma toDecimalOdds_inv_sum (c : ℚ) (hc : 0 < c) :
    ∀ l : List ℚ, (∀ p ∈ l, 0 < p) →
      ((toDecimalOdds l c).map (fun o => 1 / o)).sum ≤ l.sum
      ∧ ((∀ p ∈ l, p ≤ 1 / c) → ((toDecimalOdds l c).map (fun o => 1 / o)).sum = l.sum) := by
  intro l
  induction l with
  | nil => intro _; simp [toDecimalOdds]
  | cons p t ih =>
    intro hpos
    have hp : 0 < p := hpos p (List.mem_cons_self _ _)
    have ht := ih (fun q hq => hpos q (List.mem_cons_of_mem _ hq))
    have hcons : toDecimalOdds (p :: t) c = max c (1 / p) :: toDecimalOdds t c := rfl
    have hip : 0 < (1 : ℚ) / p := by positivity
    constructor
    · rw [hcons, List.map_cons, List.sum_cons, List.sum_cons]
      have hb : 1 / max c (1 / p) ≤ p := by
        calc 1 / max c (1 / p) ≤ 1 / (1 / p) :=
              one_div_le_one_div_of_le hip (le_max_right _ _)
          _ = p := one_div_one_div p
      exact add_le_add hb ht.1
    · intro hle
      rw [hcons, List.map_cons, List.sum_cons, List.sum_cons]
      have hcle : c ≤ 1 / p := (le_div_iff₀ hp).mpr (by
        have h1 := (le_div_iff₀ hc).mp (hle p (List.mem_cons_self _ _))
        linarith)
      rw [max_eq_right hcle, one_div_one_div,
        ht.2 (fun q hq => hle q (List.mem_cons_of_mem _ hq))]

/-- C9 (amended): for margin 0.18 and strictly positive weights, the
implied-probability sum `Σ 1/winOdds_i` of `calculateWinOdds` is at most
59/50 = 1.18 and hence strictly below 1.25 unconditionally; it equals
exactly 59/50 — in particular exceeds 1 — whenever the 1.05 floor does not
engage for any horse, i.e. every inflated probability is at most
1/1.05 = 20/21.  (The unfloored bound is what the original claim's lower
bound needs; the counterexample shows it can fail when a probability is
large enough to engage the floor.) -/
theorem calculateWinOdds_overround_bounds :
    ∀ horses : List Horse, horses ≠ [] → (∀ h ∈ horses, 0 < h.weight) →
      ((calculateWinOdds horses (18/100)).map (fun o => 1 / o)).sum < 5/4
      ∧ ((∀ p ∈ applyOverround (calculateWinProbabilities horses) (18/100), p ≤ 20/21) →
          ((calculateWinOdds horses (18/100)).map (fun o => 1 / o)).sum = 59/50
          ∧ 1 < ((calculateWinOdds horses (18/100)).map (fun o => 1 / o)).sum) := by
  intro horses hne hpos
  have hwne : horses.map Horse.weight ≠ [] := by
    cases horses with
    | nil => exact absurd rfl hne
    | cons h t => simp
  have hwpos : ∀ x ∈ horses.map Horse.weight, 0 < x := by
    intro x hx
    rcases List.mem_map.mp hx with ⟨h, hh, rfl⟩
    exact hpos h hh
  have hWpos : 0 < (horses.map Horse.weight).sum := List.sum_pos _ hwpos hwne
  have hprobs_sum : (calculateWinProbabilities horses).sum = 1 := by
    simp only [calculateWinProbabilities]
    rw [list_sum_map_div]
    exact div_self (ne_of_gt hWpos)
  have hprobs_pos : ∀ p ∈ calculateWinProbabilities horses, 0 < p := by
    intro p hp
    simp only [calculateWinProbabilities] at hp
    rcases List.mem_map.mp hp with ⟨x, hx, rfl⟩
    exact div_pos (hwpos x hx) hWpos
  have hinfl : applyOverround (calculateWinProbabilities horses) (18/100) =
      (calculateWinProbabilities horses).map (fun p => p * (59/50)) := by
    simp only [applyOverround, hprobs_sum]
    norm_num
  have hinfl_sum : (applyOverround (calculateWinProbabilities horses) (18/100)).sum = 59/50 := by
    rw [hinfl, list_sum_map_mul, hprobs_sum, one_mul]
  have hinfl_pos : ∀ p ∈ applyOverround (calculateWinProbabilities horses) (18/100), 0 < p := by
    rw [hinfl]
    intro p hp
    rcases List.mem_map.mp hp with ⟨q, hq, rfl⟩
    have hq0 := hprobs_pos q hq
    positivity
  have hmain := toDecimalOdds_inv_sum (1.05 : ℚ) (by norm_num)
    (applyOverround (calculateWinProbabilities horses) (18/100)) hinfl_pos
  have hunf : calculateWinOdds horses (18/100) =
      toDecimalOdds (applyOverround (calculateWinProbabilities horses) (18/100)) 1.05 := rfl
  constructor
  · rw [hunf]
    have h1 := hmain.1
    rw [hinfl_sum] at h1
    linarith
  · intro hfl
    have h20 : (1 : ℚ)/(1.05 : ℚ) = 20/21 := by norm_num
    have h2 := hmain.2 (by rw [h20]; exact hfl)
    rw [hinfl_sum] at h2
    rw [hunf]
    exact ⟨h2, by rw [h2]; norm_num⟩

/-- C9 counterexample: with weights 1000 and 1 (ratings 100 and 60 at a
temperature near 5.79 give exactly this ratio) and margin 0.18, the
favorite's inflated probability exceeds 1/1.05, the floor engages, and the
implied-probability sum drops strictly below 1 — the claimed lower bound
fails. -/
theorem calculateWinOdds_overround_below_one_cex :
    ((calculateWinOdds [⟨1, 1000⟩, ⟨2, 1⟩] (18/100)).map (fun o => 1 / o)).sum < 1 := by
  simp [calculateWinOdds, calculateWinProbabilities, applyOverround, toDecimalOdds]
  norm_num

/-- C9 witness: two equal weights never engage the floor; the sum is
exactly 59/50. -/
theorem calculateWinOdds_overround_bounds_witness :
    ((calculateWinOdds [⟨1, 1⟩, ⟨2, 1⟩] (18/100)).map (fun o => 1 / o)).sum < 5/4
      ∧ ((calculateWinOdds [⟨1, 1⟩, ⟨2, 1⟩] (18/100)).map (fun o => 1 / o)).sum = 59/50 := by
  have h := calculateWinOdds_overround_bounds [⟨1, 1⟩, ⟨2, 1⟩] (by simp)
    (by
      intro h hh
      simp [List.mem_cons] at hh
      rcases hh with rfl | rfl <;> norm_num)
  refine ⟨h.1, ?_⟩
  exact (h.2 (by
    intro p hp
    simp [applyOverround, calculateWinProbabilities, List.mem_cons] at hp
    rcases hp with rfl | rfl <;> norm_num)).1

/-! ## Race simulation and Monte Carlo seed derivation -/

/-- The worker's simulation loop is the image of its seed loop under the
seed-to-finish-order map. -/
lemma workerSimLoop_eq_map (simulate : String → List Nat) (seed : String) (T B : Nat) :
    ∀ (fuel batch : Nat),
      workerSimLoop simulate seed T B fuel batch =
        (workerSeedLoop seed T B fuel batch).map simulate := by
  intro fuel
  induction fuel with
  | zero => intro batch; simp [workerSimLoop, workerSeedLoop]
  | succ n ih =>
    intro batch
    simp only [workerSimLoop, workerSeedLoop]
    split_ifs with h
    · rw [List.map_append, ih (batch + B)]
      rfl
    · rfl

/-- Closed form of the worker's per-trial seeds, starting from batch
`B * j`: overall trial `t` runs under
`{seed}-batch-{B*(t/B)}-trial-{t%B}`. -/
lemma workerSeedLoop_closed (seed : String) (T B : Nat) (hB : 0 < B) :
    ∀ (fuel j : Nat), T - B * j ≤ fuel * B →
      workerSeedLoop seed T B fuel (B * j) =
        (List.range (T - B * j)).map
          (fun t => seed ++ "-batch-" ++ toString (B * ((B * j + t) / B))
            ++ "-trial-" ++ toString ((B * j + t) % B)) := by
  intro fuel
  induction fuel with
  | zero =>
    intro j hle
    have h0 : T - B * j = 0 := by omega
    simp [workerSeedLoop, h0]
  | succ n ih =>
    intro j hle
    have e1 : B * (j + 1) = B * j + B := Nat.mul_succ B j
    have e2 : (n + 1) * B = n * B + B := Nat.succ_mul n B
    by_cases h : B * j < T
    · have hle' : T - B * (j + 1) ≤ n * B := by rw [e1]; rw [e2] at hle; omega
      have hrec : workerSeedLoop seed T B n (B * j + B) =
          (List.range (T - B * (j + 1))).map
            (fun t => seed ++ "-batch-" ++ toString (B * ((B * (j + 1) + t) / B))
              ++ "-trial-" ++ toString ((B * (j + 1) + t) % B)) := by
        rw [← e1]
        exact ih (j + 1) hle'
      simp only [workerSeedLoop]
      rw [if_pos h, hrec]
      rcases le_or_lt B (T - B * j) with hBr | hBr
      · rw [min_eq_left hBr]
        have hsplit : T - B * j = B + (T - B * (j + 1)) := by rw [e1]; omega
        rw [hsplit, List.range_add, List.map_append, List.map_map]
        congr 1
        · unfold trialSeeds
          refine List.map_congr_left ?_
          intro t ht
          have htB : t < B := List.mem_range.mp ht
          have hdiv : (B * j + t) / B = j := by
            rw [Nat.mul_add_div hB, Nat.div_eq_of_lt htB, Nat.add_zero]
          have hmod : (B * j + t) % B = t := by
            rw [Nat.mul_add_mod, Nat.mod_eq_of_lt htB]
          rw [hdiv, hmod]
        · refine (List.map_congr_left ?_).symm
          intro u hu
          have harg : B * j + (B + u) = B * (j + 1) + u := by rw [e1]; omega
          simp only [Function.comp]
          rw [harg]
      · have h0 : T - B * (j + 1) = 0 := by rw [e1]; omega
        rw [min_eq_right (le_of_lt hBr), h0]
        simp only [List.range_zero, List.map_nil, List.append_nil]
        unfold trialSeeds
        refine List.map_congr_left ?_
        intro t ht
        have htr : t < T - B * j := List.mem_range.mp ht
        have htB : t < B := by omega
        have hdiv : (B * j + t) / B = j := by
          rw [Nat.mul_add_div hB, Nat.div_eq_of_lt htB, Nat.add_zero]
        have hmod : (B * j + t) % B = t := by
          rw [Nat.mul_add_mod, Nat.mod_eq_of_lt htB]
        rw [hdiv, hmod]
    · have h0 : T - B * j = 0 := by omega
      simp [workerSeedLoop, h, h0]

/-- C2 (amended): for any positive batch size, the worker's batched run is
deterministic and reproducible — overall trial `t` runs under the seed
`{seed}-batch-{B*(t/B)}-trial-{t%B}`, a function of the base seed, the
batch size and `t` — and the batch loop's output is exactly the image of
that seed list under the seed-to-finish-order map, while a direct
`runMonteCarloSimulations` call maps the same function over
`{seed}-trial-{t}`.  The two seed lists differ, so batching is not
seed-transparent (see the counterexample). -/
theorem worker_seed_derivation :
    ∀ (seed : String) (numTrials batchSize : Nat) (simulate : String → List Nat),
      0 < batchSize →
      workerTrialSeedsWith batchSize seed numTrials =
        (List.range numTrials).map
          (fun t => seed ++ "-batch-" ++ toString (batchSize * (t / batchSize))
            ++ "-trial-" ++ toString (t % batchSize))
      ∧ workerSimLoop simulate seed numTrials batchSize numTrials 0 =
          (workerTrialSeedsWith batchSize seed numTrials).map simulate
      ∧ runMonteCarloSimulations simulate seed numTrials =
          (trialSeeds seed numTrials).map simulate := by
  intro seed T B simulate hB
  have hmain := workerSeedLoop_closed seed T B hB T 0
    (by simpa using Nat.le_mul_of_pos_right T hB)
  refine ⟨?_, ?_, rfl⟩
  · unfold workerTrialSeedsWith
    have h0 : B * 0 = 0 := Nat.mul_zero B
    rw [← h0, hmain]
    simp
  · exact workerSimLoop_eq_map simulate seed T B T 0

/-- C2 witness: batch size 2 over 3 trials produces exactly the closed-form
seed list. -/
theorem worker_seed_derivation_witness :
    workerTrialSeedsWith 2 "s" 3 =
      (List.range 3).map
        (fun t => "s" ++ "-batch-" ++ toString (2 * (t / 2)) ++ "-trial-" ++ toString (t % 2)) :=
  (worker_seed_derivation "s" 3 2 charCodes (by decide)).1

/-- C2 counterexample: for base seed "s" and 2 trials the worker (with its
own batch size, here a single batch) derives trial seeds
`s-batch-0-trial-t`, not the `s-trial-t` of a direct call — the two seed
multisets differ, a seed-sensitive simulation function yields different
output multisets, and two different batch sizes already disagree with each
other, refuting batch-boundary invariance of the per-trial seeds. -/
theorem worker_batching_changes_seeds_cex :
    workerTrialSeeds "s" 2 = ["s-batch-0-trial-0", "s-batch-0-trial-1"]
      ∧ trialSeeds "s" 2 = ["s-trial-0", "s-trial-1"]
      ∧ (↑(workerTrialSeeds "s" 2) : Multiset String) ≠ (↑(trialSeeds "s" 2) : Multiset String)
      ∧ workerSimulations charCodes "s" 2 ≠ runMonteCarloSimulations charCodes "s" 2
      ∧ (↑(workerTrialSeedsWith 1 "s" 2) : Multiset String)
          ≠ (↑(workerTrialSeedsWith 2 "s" 2) : Multiset String) := by
  refine ⟨by decide, by decide, by decide, by decide, by decide⟩

/-- The subtraction loop only ever answers with a member of the pool. -/
lemma sampleLoop_mem (weights : List ℚ) :
    ∀ (remaining : List Nat) (target : ℚ) (idx : Nat),
      sampleLoop weights target remaining = some idx → idx ∈ remaining := by
  intro remaining
  induction remaining with
  | nil => intro target idx h; simp [sampleLoop] at h
  | cons r rs ih =>
    intro target idx h
    simp only [sampleLoop] at h
    split_ifs at h with hc
    · simp only [Option.some.injEq] at h
      exact h ▸ List.mem_cons_self r rs
    · exact List.mem_cons_of_mem _ (ih _ idx h)

/-- `getLastD` of a nonempty list is a member. -/
lemma getLastD_mem : ∀ (l : List Nat), l ≠ [] → l.getLastD 0 ∈ l := by
  intro l h
  rw [List.getLastD_eq_getLast?, List.getLast?_eq_getLast l h]
  simp [List.getLast_mem]

/-- `sampleByWeight` always selects from the remaining pool, through either
the loop or the fallback. -/
lemma sampleByWeight_mem (remaining : List Nat) (weights : List ℚ) (u : ℚ)
    (h : remaining ≠ []) : sampleByWeight remaining weights u ∈ remaining := by
  unfold sampleByWeight
  dsimp only
  split
  · next idx hm => exact sampleLoop_mem weights remaining _ idx hm
  · next hm => exact getLastD_mem remaining h

/-- Reading a list back off `List.range` of its length. -/
lemma list_getD_range (l : List Horse) (d : Horse) :
    (List.range l.length).map (fun i => l.getD i d) = l := by
  induction l with
  | nil => simp
  | cons a t ih =>
    rw [List.length_cons, List.range_succ_eq_map, List.map_cons, List.map_map]
    have hfun : ((fun i => (a :: t).getD i d) ∘ Nat.succ) = fun i => t.getD i d := by
      funext i
      simp [Function.comp]
    rw [hfun, ih]
    rfl

/-- The selection loop with enough fuel emits a permutation of the
remaining pool's horse ids and consumes exactly one draw per selection. -/
lemma simulateLoop_spec (horses : List Horse) (weights : List ℚ) (draws : Nat → ℚ) :
    ∀ (fuel : Nat) (remaining : List Nat) (k : Nat),
      remaining.length ≤ fuel →
      ((simulateLoop horses weights draws fuel remaining k).1).Perm
          (remaining.map (fun idx => (horses.getD idx ⟨0, 0⟩).id))
      ∧ (simulateLoop horses weights draws fuel remaining k).2 = k + remaining.length := by
  intro fuel
  induction fuel with
  | zero =>
    intro remaining k hle
    have h0 : remaining = [] := List.length_eq_zero.mp (Nat.le_zero.mp hle)
    subst h0
    simp [simulateLoop]
  | succ n ih =>
    intro remaining k hle
    cases remaining with
    | nil => simp [simulateLoop]
    | cons r rs =>
      simp only [simulateLoop]
      have hmem : sampleByWeight (r :: rs) weights (draws k) ∈ r :: rs :=
        sampleByWeight_mem _ _ _ (List.cons_ne_nil r rs)
      have hlen : ((r :: rs).erase (sampleByWeight (r :: rs) weights (draws k))).length
          = rs.length := by
        rw [List.length_erase_of_mem hmem]
        simp
      have hle' : ((r :: rs).erase (sampleByWeight (r :: rs) weights (draws k))).length ≤ n := by
        rw [hlen]
        simpa using Nat.le_of_succ_le_succ hle
      have IH := ih ((r :: rs).erase (sampleByWeight (r :: rs) weights (draws k))) (k + 1) hle'
      constructor
      · have hperm : (r :: rs).Perm
            (sampleByWeight (r :: rs) weights (draws k)
              :: (r :: rs).erase (sampleByWeight (r :: rs) weights (draws k))) :=
          List.perm_cons_erase hmem
        refine (IH.1.cons
          ((horses.getD (sampleByWeight (r :: rs) weights (draws k)) ⟨0, 0⟩).id)).trans ?_
        have hm := (hperm.map (fun idx => (horses.getD idx ⟨0, 0⟩).id)).symm
        simpa using hm
      · rw [IH.2, hlen]
        simp only [List.length_cons]
        omega

/-- C5: for a nonempty horse list with distinct ids, `simulateRace` returns
a list of the right length that is a permutation of the ids — each id
appearing exactly once — consuming exactly one `rng.next()` draw per
selection step (N draws for N horses); and whenever the subtraction loop
exhausts the pool, `sampleByWeight` deterministically falls back to the
last remaining candidate. -/
theorem simulateRace_returns_permutation :
    ∀ (horses : List Horse) (draws : Nat → ℚ),
      horses ≠ [] → (horses.map Horse.id).Nodup →
      (simulateRace horses draws).length = horses.length
      ∧ (simulateRace horses draws).Perm (horses.map Horse.id)
      ∧ (∀ i ∈ horses.map Horse.id, (simulateRace horses draws).count i = 1)
      ∧ drawsConsumed horses draws = horses.length
      ∧ (∀ (remaining : List Nat) (weights : List ℚ) (u : ℚ) (h : remaining ≠ []),
          sampleLoop weights (u * ((remaining.map (fun idx => weights.getD idx 0)).sum))
              remaining = none →
          sampleByWeight remaining weights u = remaining.getLast h) := by
  intro horses draws hne hnd
  have hspec := simulateLoop_spec horses (horses.map Horse.weight) draws horses.length
    (List.range horses.length) 0 (by simp)
  have hrange : (List.range horses.length).map
      (fun idx => (horses.getD idx ⟨0, 0⟩).id) = horses.map Horse.id := by
    have h1 : (List.range horses.length).map (fun i => horses.getD i ⟨0, 0⟩) = horses :=
      list_getD_range horses ⟨0, 0⟩
    calc (List.range horses.length).map (fun idx => (horses.getD idx ⟨0, 0⟩).id)
        = ((List.range horses.length).map (fun i => horses.getD i ⟨0, 0⟩)).map Horse.id := by
          rw [List.map_map]
          rfl
      _ = horses.map Horse.id := by rw [h1]
  have hperm : (simulateRace horses draws).Perm (horses.map Horse.id) := by
    have h2 := hspec.1
    rw [hrange] at h2
    exact h2
  refine ⟨?_, hperm, ?_, ?_, ?_⟩
  · rw [hperm.length_eq, List.length_map]
  · intro i hi
    rw [hperm.count_eq]
    exact List.count_eq_one_of_mem hnd hi
  · have h3 := hspec.2
    simpa [drawsConsumed] using h3
  · intro remaining weights u h hnone
    unfold sampleByWeight
    dsimp only
    rw [hnone]
    rw [List.getLastD_eq_getLast?, List.getLast?_eq_getLast remaining h]
    rfl

/-- C5 witness: two equal-weight horses under the all-zero draw stream
finish in a permutation of ids 1 and 2, consuming 2 draws. -/
theorem simulateRace_returns_permutation_witness :
    (simulateRace [⟨1, 1⟩, ⟨2, 1⟩] (fun _ => 0)).Perm [1, 2]
      ∧ drawsConsumed [⟨1, 1⟩, ⟨2, 1⟩] (fun _ => 0) = 2 := by
  have h := simulateRace_returns_permutation [⟨1, 1⟩, ⟨2, 1⟩] (fun _ => 0) (by decide) (by decide)
  exact ⟨h.2.1, h.2.2.2.1⟩

end KeibaDash
